import Mathlib

/-!
# gitviewer: repository registry, synchronisation and path handling

A shallow embedding of the Go sources `config.go`, `repo.go` and `server.go`.

* Go strings are embedded as `String`; every byte the code inspects (`/`, `.`, `:`, `#`)
  is ASCII, so working on characters instead of bytes changes nothing.
* A Go `map[string]*T` is embedded as an association list read with `List.lookup`.
  The values of `Config.Auth` are pointers that may be nil (`none`): a YAML entry such as
  `github.com: ~` decodes to a key with a nil `*Auth`. The values of `Config.Repos` are the
  structs pointed to.
  Go leaves the order of `range` over a map unspecified: the order of the list stands for
  the order in which one run visits the entries, and the theorems hold for every list.
* A run-time panic (nil-pointer dereference, slice bounds out of range) is an explicit
  outcome, never an error value.
* Calls that leave the program (file system, YAML decoding, go-git, the part of
  `url.Parse` behind the scheme) are parameters giving the outcome of the call.
-/

namespace Gitviewer

/-! ## Package `strings` -/

/-- The call `strings.Count(s, sep)` for a separator of one byte. -/
def stringsCount (s : String) (sep : Char) : Nat :=
  s.data.count sep

/-- The call `strings.Contains(s, sep)` for a separator of one byte. -/
def stringsContains (s : String) (sep : Char) : Bool :=
  s.data.contains sep

/-- Pieces of a character list between the occurrences of `sep`. -/
def splitChars (sep : Char) : List Char → List (List Char)
  | [] => [[]]
  | c :: cs =>
    if c = sep then [] :: splitChars sep cs
    else
      match splitChars sep cs with
      | [] => [[c]]
      | seg :: segs => (c :: seg) :: segs

/-- The call `strings.Split(s, sep)` for a separator of one byte: always at least one piece. -/
def stringsSplit (s : String) (sep : Char) : List String :=
  (splitChars sep s.data).map String.mk

/-- The call `strings.Join(elems, sep)`. -/
def stringsJoin : List String → String → String
  | [], _ => ""
  | [a], _ => a
  | a :: b :: rest, sep => a ++ sep ++ stringsJoin (b :: rest) sep

/-- The slice expression `s[1:]`: `none` stands for the panic
"slice bounds out of range" that Go raises on the empty string. -/
def sliceFrom1 (s : String) : Option String :=
  match s.data with
  | [] => none
  | _ :: cs => some (String.mk cs)

/-- Go's `a < b` on strings: lexicographic on bytes, which for UTF-8 text is the
lexicographic order on code points. -/
def stringLess (a b : String) : Bool :=
  decide (a.data < b.data)

/-! ## Package `path` and `path/filepath` (Unix) -/

/-- The `..` case of `path.Clean` when `out.w > dotdot`: `out.w--`, then
`for out.w > dotdot && out.index(out.w) != '/' { out.w-- }`.
`out` is the written part of the buffer, last byte first; `dropped` is `out.index(out.w)`. -/
def cleanBacktrackLoop (dotdot : Nat) : Char → List Char → List Char
  | _, [] => []
  | dropped, c :: out =>
    if (c :: out).length > dotdot ∧ dropped ≠ '/' then cleanBacktrackLoop dotdot c out
    else c :: out

/-- The loop `for r < n` of `path.Clean`. `rest` is `path[r:]`, `out` the written part
of the buffer with its last byte first, `dotdot` the index where `..` must stop.
Each round consumes at least one byte, so `len(path)` rounds suffice. -/
def cleanLoop (rooted : Bool) : Nat → List Char → List Char → Nat → List Char
  | 0, _, out, _ => out
  | _ + 1, [], out, _ => out
  | fuel + 1, c :: cs, out, dotdot =>
    if c = '/' then
      -- empty path element
      cleanLoop rooted fuel cs out dotdot
    else if c = '.' ∧ (cs = [] ∨ cs.head? = some '/') then
      -- . element
      cleanLoop rooted fuel cs out dotdot
    else if c = '.' ∧ cs.head? = some '.' ∧ (cs.tail = [] ∨ cs.tail.head? = some '/') then
      -- .. element: remove to last /
      if out.length > dotdot then
        -- can backtrack
        match out with
        | [] => cleanLoop rooted fuel cs.tail out dotdot
        | d :: out1 => cleanLoop rooted fuel cs.tail (cleanBacktrackLoop dotdot d out1) dotdot
      else if !rooted then
        -- cannot backtrack, but not rooted, so append .. element
        let out1 := if out.length > 0 then '/' :: out else out
        let out2 := '.' :: '.' :: out1
        cleanLoop rooted fuel cs.tail out2 out2.length
      else
        cleanLoop rooted fuel cs.tail out dotdot
    else
      -- real path element: add slash if needed, copy element
      let out1 :=
        if (rooted ∧ out.length ≠ 1) ∨ (!rooted ∧ out.length ≠ 0) then '/' :: out else out
      let elem := (c :: cs).takeWhile (fun x => x != '/')
      let rest := (c :: cs).dropWhile (fun x => x != '/')
      cleanLoop rooted fuel rest (elem.reverse ++ out1) dotdot

/-- The function `path.Clean`: the shortest path name equivalent to `path` by purely
lexical processing. -/
def pathClean (path : String) : String :=
  match path.data with
  | [] => "."
  | c :: cs =>
    let rooted := c = '/'
    let out :=
      if rooted then cleanLoop true path.data.length cs ['/'] 1
      else cleanLoop false path.data.length (c :: cs) [] 0
    if out.length = 0 then "." else String.mk out.reverse

/-- The function `path.Join`: the elements from the first non-empty one on, joined with
slashes, then cleaned; the empty string when every element is empty. -/
def pathJoin : List String → String
  | [] => ""
  | e :: rest => if e ≠ "" then pathClean (stringsJoin (e :: rest) "/") else pathJoin rest

/-- The function `filepath.Join` on Unix, where it is `path.Join`. -/
def filepathJoin (elem : List String) : String :=
  pathJoin elem

/-- The scan of `filepath.Ext`: `for i := len(path) - 1; i >= 0 && path[i] != '/'; i--`,
returning `path[i:]` at the first dot. The first list is the path read backwards from
`i`, the second is `path[i+1:]`. -/
def extScan : List Char → List Char → List Char
  | [], _ => []
  | c :: before, after =>
    if c = '/' then []
    else if c = '.' then c :: after
    else extScan before (c :: after)

/-- The function `filepath.Ext`: the suffix of the final element of `path` beginning at
its last dot, or the empty string when that element has no dot. -/
def filepathExt (path : String) : String :=
  String.mk (extScan path.data.reverse [])

/-! ## Errors and outcomes -/

/-- Go error values, compared by identity as `err != git.NoErrAlreadyUpToDate` does. -/
inductive GoError where
  /-- The sentinel `git.NoErrAlreadyUpToDate`. -/
  | NoErrAlreadyUpToDate
  /-- The value `&url.Error{Op: op, URL: url, Err: err}` in which `url.Parse` wraps an error. -/
  | urlError (op url : String) (err : GoError)
  /-- Any other error value, with its message. -/
  | other (msg : String)
  deriving DecidableEq, Repr

/-- How a call of a function returning `error` ends. -/
inductive Result where
  /-- The function returns `err` (`none` is Go's `nil`). -/
  | ret (err : Option GoError)
  /-- The function does not return: a run-time panic unwinds it. -/
  | panic
  deriving DecidableEq, Repr

/-! ## Package `net/url` -/

/-- The fields of `url.URL` that the repository reads. -/
structure URL where
  Scheme : String
  Host : String
  Path : String
  deriving DecidableEq, Repr

/-- The parts of `url.Parse` that no claim depends on, as parameters. -/
structure UrlLib where
  /-- The remainder of `parse` once `getscheme` has split `rawurl` into scheme and rest:
  lower-casing of the scheme, query, authority and path. -/
  parseAfterScheme : String → String → Except GoError URL
  /-- The last step of `url.Parse`: unescaping a non-empty fragment into the URL. -/
  setFragment : URL → String → Except GoError URL

/-- The function `split(s, c, true)` of `net/url` for a one-byte `c`: the text before and
after the first `c`, or `s` and the empty string. -/
def urlSplit (s : String) (c : Char) : String × String :=
  if s.data.contains c then
    (String.mk (s.data.takeWhile (fun x => x != c)),
      String.mk ((s.data.dropWhile (fun x => x != c)).tail))
  else (s, "")

/-- The function `stringContainsCTLByte` of `net/url` (Go 1.12 and later). -/
def stringContainsCTLByte (s : String) : Bool :=
  s.data.any (fun b => b.toNat < 32 || b.toNat = 127)

/-- The loop of `getscheme`: `i` is the index of the byte `c` at the head of the second
list, the first list is `rawurl[:i]` read backwards. -/
def getschemeLoop (rawurl : String) : List Char → List Char → Except GoError (String × String)
  | _, [] => .ok ("", rawurl)
  | seen, c :: cs =>
    if ('a' ≤ c ∧ c ≤ 'z') ∨ ('A' ≤ c ∧ c ≤ 'Z') then
      getschemeLoop rawurl (c :: seen) cs
    else if ('0' ≤ c ∧ c ≤ '9') ∨ c = '+' ∨ c = '-' ∨ c = '.' then
      if seen = [] then .ok ("", rawurl) else getschemeLoop rawurl (c :: seen) cs
    else if c = ':' then
      if seen = [] then .error (.other "missing protocol scheme")
      else .ok (String.mk seen.reverse, String.mk cs)
    else
      -- invalid character: there is no valid scheme
      .ok ("", rawurl)

/-- The function `getscheme` of `net/url`: `(scheme, rest)` or the error
"missing protocol scheme" when `rawurl` begins with a colon. -/
def getscheme (rawurl : String) : Except GoError (String × String) :=
  getschemeLoop rawurl [] rawurl.data

/-- The unexported `parse(rawurl, false)` of `net/url` up to `getscheme`. -/
def urlParseNoFragment (lib : UrlLib) (rawurl : String) : Except GoError URL :=
  if stringContainsCTLByte rawurl then
    .error (.other "net/url: invalid control character in URL")
  else if rawurl = "*" then
    .ok { Scheme := "", Host := "", Path := "*" }
  else
    match getscheme rawurl with
    | .error err => .error err
    | .ok (scheme, rest) => lib.parseAfterScheme scheme rest

/-- The function `url.Parse`: cut off the fragment, parse the rest, then set the fragment;
an error is wrapped in a `url.Error`. -/
def urlParse (lib : UrlLib) (rawurl : String) : Except GoError URL :=
  let (u, frag) := urlSplit rawurl '#'
  match urlParseNoFragment lib u with
  | .error err => .error (.urlError "parse" u err)
  | .ok url =>
    if frag = "" then .ok url
    else
      match lib.setFragment url frag with
      | .error err => .error (.urlError "parse" rawurl err)
      | .ok url1 => .ok url1

/-! ## `config.go` and `repo.go`: data model -/

/-- The struct `Auth` of `config.go`. -/
structure Auth where
  Username : String
  Password : String
  deriving DecidableEq, Repr

/-- The struct `Repo` of `repo.go`; `ParsedUrl` is a pointer, `none` when nil. -/
structure Repo where
  Url : String
  Dir : String
  ParsedUrl : Option URL
  deriving DecidableEq, Repr

/-- The struct `Config` of `config.go`: the registry read by the request handlers. -/
structure Config where
  Auth : List (String × Option Auth)
  Repos : List (String × Repo)
  deriving DecidableEq, Repr

/-- The struct `http.BasicAuth` of go-git. -/
structure BasicAuth where
  Username : String
  Password : String
  deriving DecidableEq, Repr

/-! ## `repo.go` -/

/-- The method `Repo.LocalRootPath`: where the repository should be stored.
`none` is the nil-pointer panic on a repository whose URL was never parsed. -/
def Repo.LocalRootPath (r : Repo) : Option String :=
  match r.ParsedUrl with
  | none => none
  | some u => some (filepathJoin ["repos", u.Host, u.Path])

/-- The method `Repo.LocalPath`: root of where the repository should be accessible from. -/
def Repo.LocalPath (r : Repo) : Option String :=
  match r.LocalRootPath with
  | none => none
  | some root => some (filepathJoin [root, r.Dir])

/-- Outcomes of the `os` and go-git calls made by `Repo.Refresh`, by local path. -/
structure GitEnv where
  /-- Whether `os.IsNotExist(err)` holds for the `err` of `os.Stat(path)`. -/
  statIsNotExist : String → Bool
  /-- The error of `git.PlainClone(path, false, {URL, Depth: 1, Auth})`. -/
  plainClone : String → String → Option BasicAuth → Option GoError
  /-- The error of `git.PlainOpen(path)`. -/
  plainOpen : String → Option GoError
  /-- The error of `gr.Worktree()` for the repository opened at `path`. -/
  worktree : String → Option GoError
  /-- The error of `w.Pull({RemoteName: "origin", Auth})` for the worktree at `path`. -/
  pull : String → Option BasicAuth → Option GoError

/-- The index expression `auth[host]` on a `map[string]*Auth`: the pointer stored under
`host`; nil (`none`) when the key is absent and when the pointer stored is nil. -/
def authEntry (auth : List (String × Option Auth)) (host : String) : Option Auth :=
  match auth.lookup host with
  | some (some a) => some a
  | _ => none

/-- How the block "Get auth if required" of `Repo.Refresh` ends. -/
inductive AuthOutcome where
  /-- The block completes with `basicAuth`; `none` is nil, anonymous access. -/
  | resolved (basicAuth : Option BasicAuth)
  /-- The key is present with a nil `*Auth`: `auth.Username` dereferences nil. -/
  | panic
  deriving DecidableEq, Repr

/-- The block "Get auth if required" of `Repo.Refresh`:
`if auth, ok := auth[host]; ok { basicAuth = &http.BasicAuth{Username: auth.Username, ..} }`.
With the key absent `ok` is false and `basicAuth` stays nil; with the key present `ok` is
true and the pointer stored is dereferenced, nil or not. -/
def resolveAuth (auth : List (String × Option Auth)) (host : String) : AuthOutcome :=
  match auth.lookup host with
  | none => .resolved none
  | some none => .panic
  | some (some a) => .resolved (some { Username := a.Username, Password := a.Password })

/-- The method `Repo.Refresh`: clone the repository when its local root does not exist,
otherwise open it and pull. -/
def Repo.Refresh (r : Repo) (auth : List (String × Option Auth)) (env : GitEnv) : Result :=
  match r.ParsedUrl with
  | none => .panic
  | some u =>
    -- Get auth if required
    match resolveAuth auth u.Host with
    | .panic => .panic
    | .resolved basicAuth =>
      -- Check if local repository exists
      let repoLocalPath := filepathJoin ["repos", u.Host, u.Path]
      if env.statIsNotExist repoLocalPath then
        -- If it doesn't exist, try to clone it
        match env.plainClone repoLocalPath r.Url basicAuth with
        | some err => .ret (some err)
        | none => .ret none
      else
        -- If it does, try to pull changes
        match env.plainOpen repoLocalPath with
        | some err => .ret (some err)
        | none =>
          match env.worktree repoLocalPath with
          | some err => .ret (some err)
          | none =>
            match env.pull repoLocalPath basicAuth with
            | some err =>
              if err ≠ GoError.NoErrAlreadyUpToDate then .ret (some err) else .ret none
            | none => .ret none

/-! ## `config.go` -/

/-- The two statements that normalise one repository URL in `Config.Refresh`.
`none` is the nil-pointer panic of `c.Auth["github.com"].Username` when
`c.Auth["github.com"]` is nil: the key is absent, or the pointer stored is nil. -/
def normaliseUrl (auth : List (String × Option Auth)) (url : String) : Option String :=
  let bare : Option String :=
    if !stringsContains url '/' then
      match authEntry auth "github.com" with
      | none => none
      | some a => some (a.Username ++ "/" ++ url)
    else some url
  match bare with
  | none => none
  | some url1 =>
    if stringsCount url1 '/' = 1 then some ("https://github.com/" ++ url1) else some url1

/-- The body of the loop "Normalise repo URLs" of `Config.Refresh` on one repository: the
repository as the body leaves it, and `ret none` when the loop goes on, else how
`Config.Refresh` ends. On a parse error `repo.ParsedUrl` has been assigned nil. -/
def normaliseRepo (lib : UrlLib) (auth : List (String × Option Auth)) (repo : Repo) :
    Repo × Result :=
  match normaliseUrl auth repo.Url with
  | none => (repo, .panic)
  | some url =>
    match urlParse lib url with
    | .error err => ({ repo with Url := url, ParsedUrl := none }, .ret (some err))
    | .ok parsed => ({ repo with Url := url, ParsedUrl := some parsed }, .ret none)

/-- The loop "Normalise repo URLs" of `Config.Refresh` over the entries of `c.Repos` in the
order of the run. Repositories are pointers: those visited are updated in place, also
when the loop ends early. -/
def normaliseLoop (lib : UrlLib) (auth : List (String × Option Auth)) :
    List (String × Repo) → List (String × Repo) × Result
  | [] => ([], .ret none)
  | (name, repo) :: rest =>
    match normaliseRepo lib auth repo with
    | (repo1, .ret none) =>
      let (rest1, res) := normaliseLoop lib auth rest
      ((name, repo1) :: rest1, res)
    | (repo1, res) => ((name, repo1) :: rest, res)

/-- What reading `repos/config.yml` and decoding it into `*c` did. -/
inductive LoadOutcome where
  /-- The call `ioutil.ReadFile` failed; `*c` is untouched. -/
  | readFailed (err : GoError)
  /-- The call `yaml.Unmarshal(data, c)` failed, leaving `*c` as `partly`. -/
  | unmarshalFailed (partly : Config) (err : GoError)
  /-- The call `yaml.Unmarshal(data, c)` succeeded, leaving `*c` as `decoded`. -/
  | decoded (decoded : Config)

/-- The method `Config.Refresh`: the value of `*c` when the call ends, and how it ends. -/
def Config.Refresh (lib : UrlLib) (c : Config) (load : LoadOutcome) : Config × Result :=
  match load with
  | .readFailed err => (c, .ret (some err))
  | .unmarshalFailed partly err => (partly, .ret (some err))
  | .decoded d =>
    let (repos, res) := normaliseLoop lib d.Auth d.Repos
    ({ d with Repos := repos }, res)

/-- The loop "Clone/pull each repository" of `Config.RefreshRepos`: how it ends and the names
of the repositories on which `Repo.Refresh` was invoked, in order. -/
def syncLoop (auth : List (String × Option Auth)) (env : GitEnv) :
    List (String × Repo) → Result × List String
  | [] => (.ret none, [])
  | (name, repo) :: rest =>
    match repo.Refresh auth env with
    | .panic => (.panic, [name])
    | .ret (some err) => (.ret (some err), [name])
    | .ret none =>
      let (res, names) := syncLoop auth env rest
      (res, name :: names)

/-- One call of `Config.RefreshRepos`. -/
structure RefreshReposRun where
  /-- The value of `*c` when the call ends. -/
  config : Config
  /-- How the call ends. -/
  result : Result
  /-- Names of the repositories on which `Repo.Refresh` was invoked, in order. -/
  synced : List String
  deriving DecidableEq, Repr

/-- The method `Config.RefreshRepos`: refresh the config file first, then clone or pull
each repository. -/
def Config.RefreshRepos (lib : UrlLib) (c : Config) (load : LoadOutcome) (env : GitEnv) :
    RefreshReposRun :=
  match Config.Refresh lib c load with
  | (c1, .panic) => { config := c1, result := .panic, synced := [] }
  | (c1, .ret (some err)) => { config := c1, result := .ret (some err), synced := [] }
  | (c1, .ret none) =>
    let (res, names) := syncLoop c1.Auth env c1.Repos
    { config := c1, result := res, synced := names }

/-! ## `server.go`: data model -/

/-- Set of image extensions to embed (the keys of the map `imageExtensions`). -/
def imageExtensions : List String :=
  ["png", "jpg", "jpeg", "svg", "gif"]

/-- The struct `Breadcrumb` of `server.go`. -/
structure Breadcrumb where
  Name : String
  Url : String
  Bold : Bool
  Dir : Bool
  deriving DecidableEq, Repr

/-- The struct `File` of `server.go`. -/
structure File where
  Name : String
  Url : String
  Dir : Bool
  deriving DecidableEq, Repr

/-- The struct `fileSorter` of `server.go`. -/
structure fileSorter where
  files : List File
  deriving DecidableEq, Repr

/-- The struct `TemplateContext` of `server.go`. -/
structure TemplateContext where
  Path : String
  Breadcrumbs : List Breadcrumb
  Files : List File
  Content : String
  PrismLanguage : String
  Image : String
  deriving DecidableEq, Repr

/-! ## `server.go`: sorting the directory listing -/

/-- The method `fileSorter.Len`. -/
def fileSorter.Len (s : fileSorter) : Nat :=
  s.files.length

/-- The method `fileSorter.Swap`; on an index out of range (a panic in Go, never
requested by package `sort`) the slice is left as it is. -/
def fileSorter.Swap (s : fileSorter) (i j : Nat) : fileSorter :=
  match s.files[i]?, s.files[j]? with
  | some a, some b => { files := (s.files.set i b).set j a }
  | _, _ => s

/-- The body of `fileSorter.Less` on the two entries `a, b := s.files[i], s.files[j]`. -/
def fileLess (a b : File) : Bool :=
  if a.Dir == b.Dir then stringLess a.Name b.Name else a.Dir

/-- The method `fileSorter.Less`; `false` on an index out of range (a panic in Go, never
requested by package `sort`). -/
def fileSorter.Less (s : fileSorter) (i j : Nat) : Bool :=
  match s.files[i]?, s.files[j]? with
  | some a, some b => fileLess a b
  | _, _ => false

/-- The inner loop of `insertionSort` of package `sort`:
`for j := i; j > a && data.Less(j, j-1); j-- { data.Swap(j, j-1) }` with `a = 0`. -/
def insertionInner (data : fileSorter) : Nat → fileSorter
  | 0 => data
  | j + 1 => if data.Less (j + 1) j then insertionInner (data.Swap (j + 1) j) j else data

/-- The outer loop of `insertionSort` of package `sort`: `for i := a + 1; i < b; i++`
with `b = data.Len()`. -/
def insertionOuter : Nat → Nat → fileSorter → fileSorter
  | 0, _, data => data
  | fuel + 1, i, data =>
    if i < data.Len then insertionOuter fuel (i + 1) (insertionInner data i) else data

/-- The call `sort.Sort(data)`, as the insertion sort that package `sort` runs on a short
slice (`insertionSort(data, 0, n)`). On a longer slice the package runs a quicksort variant;
when names are pairwise distinct the outcome does not depend on the algorithm, which the
theorem on the order of the directory listing shows as well. -/
def sortSort (data : fileSorter) : fileSorter :=
  insertionOuter data.Len 1 data

/-- The function `sort.IsSorted` of package `sort`:
`for i := n - 1; i > 0; i-- { if data.Less(i, i-1) { return false } }`. -/
def sortIsSorted (data : fileSorter) : Bool :=
  (List.range data.Len).all (fun i => i = 0 || !data.Less i (i - 1))

/-! ## `server.go`: the request handler -/

/-- How `pathHandler` presents a file. -/
inductive Presentation where
  /-- Embedded as an image (`isImage = true`). -/
  | image
  /-- Returned as it is with `http.ServeFile`. -/
  | raw
  /-- Shown as text highlighted as `prismLanguage`. -/
  | text (prismLanguage : String)
  deriving DecidableEq, Repr

/-- The decision of `pathHandler` on the extension `ext`, the flag `raw` and the
language table `languages`:
`if _, ok := imageExtensions[ext]; ok && !raw` ..
`else if language, ok := s.languages[ext]; !ok || raw` .. `else` .. -/
def classify (languages : List (String × String)) (ext : String) (raw : Bool) : Presentation :=
  if imageExtensions.contains ext && !raw then .image
  else
    match languages.lookup ext with
    | none => .raw
    | some language => if raw then .raw else .text language

/-- The block "Check if we can't preview this file" of `pathHandler` for a file:
`ext := filepath.Ext(filePath)[1:]`, `raw := r.URL.Query().Get("raw") == "true"`, then the
decision. `none` is the panic of the slice expression. -/
def classifyFile (languages : List (String × String)) (filePath rawQuery : String) :
    Option Presentation :=
  match sliceFrom1 (filepathExt filePath) with
  | none => none
  | some ext => some (classify languages ext (rawQuery == "true"))

/-- The loop over `pathSegments` that appends one breadcrumb per segment; `i` is the loop
index, the first argument bounds the number of rounds. -/
def breadcrumbLoop (pathSegments : List String) (isDir : Bool) :
    Nat → Nat → String → List Breadcrumb → List Breadcrumb
  | 0, _, _, breadcrumbs => breadcrumbs
  | fuel + 1, i, cumulativePath, breadcrumbs =>
    match pathSegments[i]? with
    | none => breadcrumbs
    | some segment =>
      -- Whether this is the last path segment
      let isLast := i == pathSegments.length - 1
      -- Add to the path for breadcrumb links
      let cumulativePath1 := cumulativePath ++ "/" ++ segment
      -- Make the last breadcrumb inactive
      let url := if isLast then "" else cumulativePath1
      breadcrumbLoop pathSegments isDir fuel (i + 1) cumulativePath1
        (breadcrumbs ++
          [{ Name := segment, Url := url, Bold := isLast, Dir := !isLast || (isLast && isDir) }])

/-- The block "Build breadcrumbs for template" of `pathHandler`. -/
def buildBreadcrumbs (repoName relativePath : String) (isDir : Bool) : List Breadcrumb :=
  let cumulativePath := "/" ++ repoName
  let first : Breadcrumb := { Name := repoName, Url := cumulativePath, Bold := true, Dir := true }
  -- Check if we're looking at the root
  if relativePath = "." then
    -- Make the first breadcrumb inactive
    [{ first with Url := "" }]
  else
    -- Split the path into directories/files
    let pathSegments := stringsSplit relativePath '/'
    breadcrumbLoop pathSegments isDir pathSegments.length 0 cumulativePath [first]

/-- The loop "Build slice of file structs" of `pathHandler` over the entries
`(name, dir)` that `ioutil.ReadDir` returned. -/
def buildFiles (repoName relativePath : String) : List (String × Bool) → List File
  | [] => []
  | (name, dir) :: rest =>
    if dir && name == ".git" then buildFiles repoName relativePath rest
    else
      { Name := name, Url := pathJoin ["/" ++ repoName, relativePath, name], Dir := dir } ::
        buildFiles repoName relativePath rest

/-- The result of `os.Stat(filePath)`. -/
inductive StatOutcome where
  /-- An error for which `os.IsNotExist` holds. -/
  | notExist
  /-- Any other error, with its message. -/
  | failed (msg : String)
  /-- No error; `isDir` is `stat.IsDir()`. -/
  | found (isDir : Bool)
  deriving DecidableEq, Repr

/-- The file system as the handler sees it. -/
structure FileSystem where
  /-- The call `os.Stat(path)`. -/
  stat : String → StatOutcome
  /-- The call `ioutil.ReadDir(path)`: name and `IsDir()` of each entry, or the error message. -/
  readDir : String → Except String (List (String × Bool))
  /-- The call `ioutil.ReadFile(path)`: the content, or the error message. -/
  readFile : String → Except String String

/-- What `pathHandler` does with the request. -/
inductive Response where
  /-- The call `http.NotFound(w, r)`: status 404. -/
  | notFound
  /-- The call `http.Error(w, msg, http.StatusInternalServerError)`: status 500. -/
  | internalServerError (msg : String)
  /-- The call `http.ServeFile(w, r, filePath)`. -/
  | serveFile (filePath : String)
  /-- The template executed on `ctx`. -/
  | page (ctx : TemplateContext)
  /-- A run-time panic unwinds the handler. -/
  | panic
  deriving DecidableEq, Repr

/-- The method `Server.pathHandler` on the parameters `params["repo"]`, `params["path"]`
and the query value `raw`. -/
def pathHandler (config : Config) (languages : List (String × String)) (fs : FileSystem)
    (repoName pathParam rawQuery : String) : Response :=
  -- Check & load the repo from the config
  let relativePath := pathClean pathParam
  match config.Repos.lookup repoName with
  | none => .notFound
  | some repo =>
    -- Try to load & identify the path from the repo
    match repo.LocalPath with
    | none => .panic
    | some localPath =>
      let filePath := filepathJoin [localPath, relativePath]
      match fs.stat filePath with
      | .notExist => .notFound
      | .failed msg => .internalServerError msg
      | .found isDir =>
        -- Check if we can't preview this file, if we can't, just return it as the response
        -- (a directory skips the block: prismLanguage is "" and isImage is false)
        let shown : Option Presentation :=
          if !isDir then classifyFile languages filePath rawQuery else some (.text "")
        match shown with
        | none => .panic
        | some .raw => .serveFile filePath
        | some shown1 =>
          -- Create universal template context
          let ctx : TemplateContext :=
            { Path := pathJoin [repoName, relativePath],
              Breadcrumbs := buildBreadcrumbs repoName relativePath isDir,
              Files := [], Content := "", PrismLanguage := "", Image := "" }
          if isDir then
            -- Create directory listing if required
            match fs.readDir filePath with
            | .error msg => .internalServerError msg
            | .ok files =>
              -- Sort with directories first then alphabetical order
              let listing := buildFiles repoName relativePath files
              .page { ctx with Files := (sortSort ⟨listing⟩).files }
          else
            match shown1 with
            | .image =>
              -- Otherwise, if it's an image embed it
              .page { ctx with Image := pathJoin ["/" ++ repoName, relativePath] ++ "?raw=true" }
            | .text prismLanguage =>
              -- Otherwise, just return & syntax highlight the content
              match fs.readFile filePath with
              | .error msg => .internalServerError msg
              | .ok content => .page { ctx with Content := content, PrismLanguage := prismLanguage }
            | .raw => .serveFile filePath

/-- The method `Server.indexHandler`: the path handler at the root of the repository. -/
def indexHandler (config : Config) (languages : List (String × String)) (fs : FileSystem)
    (repoName rawQuery : String) : Response :=
  pathHandler config languages fs repoName "." rawQuery

/-- The method `Server.refreshRepos`: refresh and log the outcome; the error is not
propagated. -/
def refreshRepos (lib : UrlLib) (config : Config) (load : LoadOutcome) (env : GitEnv) :
    RefreshReposRun :=
  Config.RefreshRepos lib config load env

/-! ## Reference definitions, following the wording of the specification -/

/-- URL normalisation as the specification words it, for the github.com username `n`:
no slash gives `https://github.com/n/u`, exactly one slash gives `https://github.com/u`,
two or more give `u` unchanged. -/
def normaliseRef (n u : String) : String :=
  if stringsCount u '/' = 0 then "https://github.com/" ++ n ++ "/" ++ u
  else if stringsCount u '/' = 1 then "https://github.com/" ++ u
  else u

/-- Content classification as the specification words it: raw when forced, else image for
an image extension, else text for an extension of the language table, else raw. -/
def classifyRef (languages : List (String × String)) (e : String) (raw : Bool) : Presentation :=
  if raw then .raw
  else if e = "png" ∨ e = "jpg" ∨ e = "jpeg" ∨ e = "svg" ∨ e = "gif" then .image
  else
    match languages.lookup e with
    | some language => .text language
    | none => .raw

/-- Confinement as the specification words it: `location` is `root` itself or a
descendant of it (both are cleaned paths). -/
def isWithin (root location : String) : Bool :=
  location == root || location.data.take (root.data.length + 1) == root.data ++ ['/']

/-- The link of a breadcrumb as the specification words it:
`'/' + r + '/' + s1 + '/' + ... + '/' + si` for the segments `s1 .. si`. -/
def crumbLinkRef (r : String) (segments : List String) : String :=
  segments.foldl (fun link s => link ++ "/" ++ s) ("/" ++ r)

/-- The breadcrumbs of the segments `todo`, the first of which has index `i` among `n`
segments, after the cumulative path `cum`: crumb by crumb what the loop appends. -/
def crumbsFrom (n : Nat) (isDir : Bool) : Nat → String → List String → List Breadcrumb
  | _, _, [] => []
  | i, cum, s :: rest =>
    { Name := s, Url := if i + 1 = n then "" else cum ++ "/" ++ s,
      Bold := decide (i + 1 = n), Dir := decide (i + 1 < n) || isDir } ::
      crumbsFrom n isDir (i + 1) (cum ++ "/" ++ s) rest

/-- Insertion of `x` into a slice read backwards (last entry first), as the inner loop of
the insertion sort performs it: `x` moves left past every neighbour it is less than. -/
def insertBack (x : File) : List File → List File
  | [] => [x]
  | y :: ys => if fileLess x y then y :: insertBack x ys else x :: y :: ys

/-- The key by which `fileSorter.Less` compares: directories (key `false`) before files,
then the name. -/
def fileKey (a : File) : Bool ×ₗ String :=
  toLex (!a.Dir, a.Name)

/-! ## Sample inputs -/

/-- The repository of the specification's end-to-end example, after a successful refresh. -/
def demoRepo : Repo :=
  { Url := "https://github.com/octocat/hello", Dir := "",
    ParsedUrl := some { Scheme := "https", Host := "github.com", Path := "/octocat/hello" } }

/-- A registry holding the demo repository and the credential of user `foo`. -/
def demoConfig : Config :=
  { Auth := [("github.com", some { Username := "foo", Password := "s3cret" })],
    Repos := [("demo", demoRepo)] }

/-- A credential map decoded from `auth: {github.com: ~}`: the key of the host is present
and the pointer stored under it is nil. -/
def nullCredential : List (String × Option Auth) :=
  [("github.com", none)]

/-- An environment in which every local root exists, opens, and is up to date with its
upstream: the second of two syncs against an unchanged upstream. -/
def upToDateEnv : GitEnv :=
  { statIsNotExist := fun _ => false,
    plainClone := fun _ _ _ => none,
    plainOpen := fun _ => none,
    worktree := fun _ => none,
    pull := fun _ _ => some .NoErrAlreadyUpToDate }

/-- The directory listing of the specification's example: `b.txt`, `a/`, `c/`, `a.txt`. -/
def sampleListing : List File :=
  [{ Name := "b.txt", Url := "/demo/b.txt", Dir := false },
   { Name := "a", Url := "/demo/a", Dir := true },
   { Name := "c", Url := "/demo/c", Dir := true },
   { Name := "a.txt", Url := "/demo/a.txt", Dir := false }]

/-- The listing of the example in the order the specification expects. -/
def sampleListingSorted : List File :=
  [{ Name := "a", Url := "/demo/a", Dir := true },
   { Name := "c", Url := "/demo/c", Dir := true },
   { Name := "a.txt", Url := "/demo/a.txt", Dir := false },
   { Name := "b.txt", Url := "/demo/b.txt", Dir := false }]

/-- A server directory holding `repos/config.yml` (with the credentials) beside the clones. -/
def serverFiles : FileSystem :=
  { stat := fun p =>
      if p = "repos/config.yml" then .found false
      else if p = "repos" then .found true
      else if p = "repos/github.com/octocat/hello" then .found true
      else .notExist,
    readDir := fun p =>
      if p = "repos" then .ok [("config.yml", false), ("github.com", true)]
      else if p = "repos/github.com/octocat/hello" then .ok [(".git", true), ("README.md", false)]
      else .error "open: no such file or directory",
    readFile := fun p =>
      if p = "repos/config.yml" then .ok "auth: {github.com: {username: foo, password: s3cret}}"
      else .error "open: no such file or directory" }

/-- A language table mapping `yml` to `yaml` and `py` to `python`. -/
def sampleLanguages : List (String × String) :=
  [("yml", "yaml"), ("py", "python")]

/-- Two repositories of a registry, both cloned and parsed. -/
def repoAlpha : Repo :=
  { Url := "https://github.com/octocat/alpha", Dir := "",
    ParsedUrl := some { Scheme := "https", Host := "github.com", Path := "/octocat/alpha" } }

/-- The second of the two repositories. -/
def repoBeta : Repo :=
  { Url := "https://github.com/octocat/beta", Dir := "",
    ParsedUrl := some { Scheme := "https", Host := "github.com", Path := "/octocat/beta" } }

/-- The registry of the two repositories, `alpha` visited first. -/
def twoRepos : Config :=
  { Auth := [], Repos := [("alpha", repoAlpha), ("beta", repoBeta)] }

/-- An environment in which every clone exists and the pull of `alpha` alone fails. -/
def alphaFailsEnv : GitEnv :=
  { statIsNotExist := fun _ => false,
    plainClone := fun _ _ _ => none,
    plainOpen := fun _ => none,
    worktree := fun _ => none,
    pull := fun p _ =>
      if p = "repos/github.com/octocat/alpha" then some (.other "authentication required")
      else none }

/-- The error that `url.Parse` returns for the URL `://`. -/
def colonUrlError : GoError :=
  .urlError "parse" "://" (.other "missing protocol scheme")

/-- A decoded `config.yml` to which a repository with the unparsable URL `://` was added,
visited before `demo`. -/
def brokenConfig : Config :=
  { Auth := [("github.com", some { Username := "foo", Password := "s3cret" })],
    Repos := [("broken", { Url := "://", Dir := "", ParsedUrl := none }),
              ("demo", { Url := "octocat/hello", Dir := "", ParsedUrl := none })] }

/-- A decoded `config.yml` without credentials, holding the unparsable URL `://`, visited
first, and the bare repository name `bar`. -/
def bareConfig : Config :=
  { Auth := [],
    Repos := [("broken", { Url := "://", Dir := "", ParsedUrl := none }),
              ("lib", { Url := "bar", Dir := "", ParsedUrl := none })] }

/-! ## Lemmas on strings -/

theorem stringsContains_eq_false_iff (s : String) (c : Char) :
    stringsContains s c = false ↔ stringsCount s c = 0 := by
  unfold stringsContains stringsCount
  rw [List.count_eq_zero]
  constructor
  · intro h hmem
    have : s.data.contains c = true := by simpa using hmem
    rw [h] at this
    exact Bool.noConfusion this
  · intro h
    cases hc : s.data.contains c with
    | false => rfl
    | true => exact absurd (by simpa using hc) h

theorem stringsCount_append (a b : String) (c : Char) :
    stringsCount (a ++ b) c = stringsCount a c + stringsCount b c := by
  simp [stringsCount, List.count_append]

theorem stringsCount_slash : stringsCount "/" '/' = 1 := by decide

/-! ## Lemmas on the normalisation loop -/

/-- The entry that the loop leaves behind for a visited repository. -/
theorem normaliseLoop_all_ok (lib : UrlLib) (auth : List (String × Option Auth))
    (repos : List (String × Repo))
    (hok : ∀ e ∈ repos, (normaliseRepo lib auth e.2).2 = .ret none) :
    normaliseLoop lib auth repos =
      (repos.map (fun e => (e.1, (normaliseRepo lib auth e.2).1)), .ret none) := by
  induction repos with
  | nil => rfl
  | cons e rest ih =>
    obtain ⟨name, repo⟩ := e
    have h1 : (normaliseRepo lib auth repo).2 = .ret none := hok (name, repo) (by simp)
    have ih1 := ih (fun e he => hok e (List.mem_cons_of_mem _ he))
    unfold normaliseLoop
    rcases hr : normaliseRepo lib auth repo with ⟨repo1, res⟩
    rw [hr] at h1
    simp only at h1
    subst h1
    simp [ih1, hr]

theorem normaliseLoop_stop (lib : UrlLib) (auth : List (String × Option Auth))
    (before after : List (String × Repo)) (name : String) (repo : Repo)
    (hok : ∀ e ∈ before, (normaliseRepo lib auth e.2).2 = .ret none)
    (hstop : (normaliseRepo lib auth repo).2 ≠ .ret none) :
    normaliseLoop lib auth (before ++ (name, repo) :: after) =
      (before.map (fun e => (e.1, (normaliseRepo lib auth e.2).1)) ++
        (name, (normaliseRepo lib auth repo).1) :: after,
       (normaliseRepo lib auth repo).2) := by
  induction before with
  | nil =>
    simp only [List.nil_append, List.map_nil]
    unfold normaliseLoop
    rcases hr : normaliseRepo lib auth repo with ⟨repo1, res⟩
    rw [hr] at hstop
    simp only at hstop
    cases res with
    | panic => rfl
    | ret err =>
      cases err with
      | none => exact absurd rfl hstop
      | some err => rfl
  | cons e rest ih =>
    obtain ⟨name1, repo1⟩ := e
    have h1 : (normaliseRepo lib auth repo1).2 = .ret none := hok (name1, repo1) (by simp)
    have ih1 := ih (fun e he => hok e (List.mem_cons_of_mem _ he))
    simp only [List.cons_append, List.map_cons]
    unfold normaliseLoop
    rcases hr : normaliseRepo lib auth repo1 with ⟨repo2, res⟩
    rw [hr] at h1
    simp only at h1
    subst h1
    simp [ih1]

theorem normaliseLoop_ret_none (lib : UrlLib) (auth : List (String × Option Auth))
    (repos out : List (String × Repo))
    (h : normaliseLoop lib auth repos = (out, .ret none)) :
    ∀ e ∈ repos, (normaliseRepo lib auth e.2).2 = .ret none := by
  induction repos generalizing out with
  | nil => intro e he; cases he
  | cons e rest ih =>
    obtain ⟨name, repo⟩ := e
    unfold normaliseLoop at h
    rcases hr : normaliseRepo lib auth repo with ⟨repo1, res⟩
    rw [hr] at h
    have hres : res = .ret none := by
      cases res with
      | panic => simp at h
      | ret err =>
        cases err with
        | none => rfl
        | some err => simp at h
    subst hres
    rcases hl : normaliseLoop lib auth rest with ⟨rest1, res1⟩
    rw [hl] at h
    simp only [Prod.mk.injEq] at h
    obtain ⟨_, h2⟩ := h
    subst h2
    intro e he
    rcases List.mem_cons.1 he with rfl | he
    · simp [hr]
    · exact ih rest1 hl e he

theorem normaliseRepo_url (lib : UrlLib) (auth : List (String × Option Auth)) (repo : Repo)
    (url : String) (h : normaliseUrl auth repo.Url = some url) :
    (normaliseRepo lib auth repo).1.Url = url ∧
      (normaliseRepo lib auth repo).1.Dir = repo.Dir := by
  cases hp : urlParse lib url <;> simp [normaliseRepo, h, hp]

/-! ## C1: path confinement -/

/-- C1 (the code departs from the claim). The request `GET /demo/../../../config.yml` names
a known repository; `path.Clean` keeps the leading `..` segments, `filepath.Join` resolves the
location to `repos/config.yml`, outside the root `repos/github.com/octocat/hello` of the
repository, and `pathHandler` answers with a page holding the content of that file instead
of 404; `GET /demo/../../..` lists the directory `repos` in the same way. -/
theorem C1_path_escapes_root :
    pathClean "../../../config.yml" = "../../../config.yml" ∧
    demoRepo.LocalPath = some "repos/github.com/octocat/hello" ∧
    filepathJoin ["repos/github.com/octocat/hello", pathClean "../../../config.yml"]
      = "repos/config.yml" ∧
    isWithin "repos/github.com/octocat/hello" "repos/config.yml" = false ∧
    pathHandler demoConfig sampleLanguages serverFiles "demo" "../../../config.yml" "" =
      .page
        { Path := "../../config.yml",
          Breadcrumbs :=
            [{ Name := "demo", Url := "/demo", Bold := true, Dir := true },
             { Name := "..", Url := "/demo/..", Bold := false, Dir := true },
             { Name := "..", Url := "/demo/../..", Bold := false, Dir := true },
             { Name := "..", Url := "/demo/../../..", Bold := false, Dir := true },
             { Name := "config.yml", Url := "", Bold := true, Dir := false }],
          Files := [],
          Content := "auth: {github.com: {username: foo, password: s3cret}}",
          PrismLanguage := "yaml",
          Image := "" } ∧
    pathHandler demoConfig sampleLanguages serverFiles "demo" "../../.." "" =
      .page
        { Path := "../..",
          Breadcrumbs :=
            [{ Name := "demo", Url := "/demo", Bold := true, Dir := true },
             { Name := "..", Url := "/demo/..", Bold := false, Dir := true },
             { Name := "..", Url := "/demo/../..", Bold := false, Dir := true },
             { Name := "..", Url := "", Bold := true, Dir := true }],
          Files :=
            [{ Name := "github.com", Url := "/github.com", Dir := true },
             { Name := "config.yml", Url := "/config.yml", Dir := false }],
          Content := "",
          PrismLanguage := "",
          Image := "" } := by
  refine ⟨by decide, by decide, by decide, by decide, by decide, by decide⟩

/-! ## C2: URL normalisation -/

theorem normaliseUrl_eq_reference (auth : List (String × Option Auth)) (n pw u : String)
    (hcred : auth.lookup "github.com" = some (some { Username := n, Password := pw }))
    (hn : stringsContains n '/' = false) :
    normaliseUrl auth u = some (normaliseRef n u) := by
  have hn0 : stringsCount n '/' = 0 := (stringsContains_eq_false_iff n '/').1 hn
  unfold normaliseUrl normaliseRef
  cases hu : stringsContains u '/' with
  | false =>
    have hu0 : stringsCount u '/' = 0 := (stringsContains_eq_false_iff u '/').1 hu
    have h1 : stringsCount (n ++ "/" ++ u) '/' = 1 := by
      rw [stringsCount_append, stringsCount_append, hn0, hu0, stringsCount_slash]
    simp [authEntry, hcred, h1, hu0]
    simp [String.append_assoc]
  | true =>
    have hu0 : stringsCount u '/' ≠ 0 := by
      intro h0
      rw [(stringsContains_eq_false_iff u '/').2 h0] at hu
      exact Bool.noConfusion hu
    by_cases h1 : stringsCount u '/' = 1
    · simp [h1]
    · simp [h1, hu0]

/-- C2. For a registry whose github.com credential has a username `n` without a slash, the
normalisation statements of `Config.Refresh` map every raw URL `u` to the reference
`normaliseRef n u` (no slash: `https://github.com/n/u`; one slash: `https://github.com/u`;
two or more: `u`), and when `Config.Refresh` returns nil on a decoded configuration, every
repository of the registry holds the reference applied to its decoded URL. -/
theorem C2_normalisation_eq_reference (auth : List (String × Option Auth)) (n pw : String)
    (hcred : auth.lookup "github.com" = some (some { Username := n, Password := pw }))
    (hn : stringsContains n '/' = false) :
    (∀ u, normaliseUrl auth u = some (normaliseRef n u)) ∧
    (∀ lib c repos c1, Config.Refresh lib c (.decoded { Auth := auth, Repos := repos })
        = (c1, .ret none) →
      c1.Repos.map (fun e => (e.1, e.2.Url)) =
        repos.map (fun e => (e.1, normaliseRef n e.2.Url))) := by
  refine ⟨fun u => normaliseUrl_eq_reference auth n pw u hcred hn, ?_⟩
  intro lib c repos c1 h
  unfold Config.Refresh at h
  simp only at h
  rcases hl : normaliseLoop lib auth repos with ⟨out, res⟩
  rw [hl] at h
  simp only [Prod.mk.injEq] at h
  obtain ⟨hc, hres⟩ := h
  subst hres
  have hall := normaliseLoop_ret_none lib auth repos out hl
  rw [normaliseLoop_all_ok lib auth repos hall] at hl
  simp only [Prod.mk.injEq, and_true] at hl
  rw [← hc, ← hl]
  simp only [List.map_map]
  apply List.map_congr_left
  intro e _
  simp only [Function.comp]
  rw [(normaliseRepo_url lib auth e.2 _ (normaliseUrl_eq_reference auth n pw e.2.Url hcred hn)).1]

/-- C2, at the inputs of the specification: `bar` with username `foo`, and `octocat/hello`. -/
theorem C2_normalisation_witness :
    normaliseUrl demoConfig.Auth "bar" = some "https://github.com/foo/bar" ∧
    normaliseUrl demoConfig.Auth "octocat/hello" = some "https://github.com/octocat/hello" ∧
    normaliseUrl demoConfig.Auth "https://example.org/a/b" = some "https://example.org/a/b" :=
  have h := (C2_normalisation_eq_reference demoConfig.Auth "foo" "s3cret" (by decide) (by decide)).1
  ⟨(h "bar").trans (by decide), (h "octocat/hello").trans (by decide),
    (h "https://example.org/a/b").trans (by decide)⟩

/-! ## C3: content classification -/

/-- C3. The classification of `pathHandler` equals the reference decision for every
extension `e`, every raw flag and every language table `L`: raw when the flag is set; else
image for png, jpg, jpeg, svg and gif (also when `e` is a key of `L`); else text tagged `L[e]`
when `e` is a key of `L`; else raw. At the inputs of the specification: `png` is an image,
`png` with the raw flag is raw, `py` mapped to `python` is text tagged `python`. -/
theorem C3_classification_eq_reference (L : List (String × String)) (e : String) (raw : Bool) :
    classify L e raw = classifyRef L e raw ∧
    classify L "png" false = .image ∧
    classify L "png" true = .raw ∧
    classify [("py", "python")] "py" false = .text "python" ∧
    classify [("png", "markup")] "png" false = .image := by
  refine ⟨?_, ?_, ?_, by decide, by decide⟩
  · unfold classify classifyRef imageExtensions
    cases raw with
    | true => cases L.lookup e <;> simp
    | false =>
      by_cases himg : e = "png" ∨ e = "jpg" ∨ e = "jpeg" ∨ e = "svg" ∨ e = "gif"
      · have : ["png", "jpg", "jpeg", "svg", "gif"].contains e = true := by
          rcases himg with h | h | h | h | h <;> subst h <;> decide
        simp [this, himg]
      · have : ["png", "jpg", "jpeg", "svg", "gif"].contains e = false := by
          simp only [not_or] at himg
          obtain ⟨h1, h2, h3, h4, h5⟩ := himg
          simp [h1, h2, h3, h4, h5]
        simp only [this, himg]
        cases L.lookup e <;> simp
  · simp [classify, imageExtensions]
  · unfold classify
    cases L.lookup "png" <;> simp

/-! ## C4: classification of a file without extension -/

/-- C4 (the code departs from the claim). For a file whose final element has no dot,
`filepath.Ext` returns the empty string and the slice `[1:]` panics: the classification
block yields no presentation, whatever the language table and the raw flag, and
`pathHandler` ends in a panic instead of serving the bytes of `LICENSE`. -/
theorem C4_no_extension_panics :
    filepathExt "repos/github.com/octocat/hello/LICENSE" = "" ∧
    sliceFrom1 "" = none ∧
    (∀ L rawQuery, classifyFile L "repos/github.com/octocat/hello/LICENSE" rawQuery = none) ∧
    (∀ L rawQuery readDir readFile,
      pathHandler demoConfig L
        { stat := fun p =>
            if p = "repos/github.com/octocat/hello/LICENSE" then .found false else .notExist,
          readDir := readDir, readFile := readFile }
        "demo" "LICENSE" rawQuery = .panic) := by
  have hext : filepathExt "repos/github.com/octocat/hello/LICENSE" = "" := by decide
  have hcls : ∀ L rawQuery,
      classifyFile L "repos/github.com/octocat/hello/LICENSE" rawQuery = none := by
    intro L rawQuery
    simp [classifyFile, hext, sliceFrom1]
  refine ⟨hext, by decide, hcls, ?_⟩
  intro L rawQuery readDir readFile
  have hclean : pathClean "LICENSE" = "LICENSE" := by decide
  have hlook : demoConfig.Repos.lookup "demo" = some demoRepo := by decide
  have hlocal : demoRepo.LocalPath = some "repos/github.com/octocat/hello" := by decide
  have hjoin : filepathJoin ["repos/github.com/octocat/hello", "LICENSE"]
      = "repos/github.com/octocat/hello/LICENSE" := by decide
  simp [pathHandler, hclean, hlook, hlocal, hjoin, hcls]

/-! ## C5: order of the directory listing -/

theorem stringLess_iff (a b : String) : stringLess a b = true ↔ a < b := by
  unfold stringLess
  rw [decide_eq_true_iff, String.lt_iff_toList_lt]
  rfl

theorem fileLess_iff_key (a b : File) : fileLess a b = true ↔ fileKey a < fileKey b := by
  unfold fileLess fileKey
  rw [Prod.Lex.lt_iff]
  simp only [ofLex_toLex]
  cases ha : a.Dir <;> cases hb : b.Dir <;> simp [stringLess_iff]

theorem fileLess_asymm (a b : File) (h : fileLess a b = true) : ¬ fileLess b a = true := by
  rw [fileLess_iff_key] at h ⊢
  exact lt_asymm h

theorem fileLess_neg_trans (a b c : File) (hab : ¬ fileLess a b = true)
    (hbc : ¬ fileLess b c = true) : ¬ fileLess a c = true := by
  rw [fileLess_iff_key] at hab hbc ⊢
  rw [not_lt] at hab hbc ⊢
  exact le_trans hbc hab

theorem fileKey_eq_of_not_less (a b : File) (hab : ¬ fileLess a b = true)
    (hba : ¬ fileLess b a = true) : a.Dir = b.Dir ∧ a.Name = b.Name := by
  rw [fileLess_iff_key] at hab hba
  rw [not_lt] at hab hba
  have h := le_antisymm hba hab
  unfold fileKey at h
  have h2 := congrArg ofLex h
  simp only [ofLex_toLex, Prod.mk.injEq] at h2
  obtain ⟨h3, h4⟩ := h2
  refine ⟨?_, h4⟩
  cases ha : a.Dir <;> cases hb : b.Dir <;> simp [ha, hb] at h3 <;> rfl

theorem less_adjacent (before after : List File) (x y : File) :
    (fileSorter.mk (before ++ y :: x :: after)).Less (before.length + 1) before.length
      = fileLess x y := by
  unfold fileSorter.Less
  have h1 : (before ++ y :: x :: after)[before.length + 1]? = some x := by
    rw [List.getElem?_append_right (by omega)]
    simp
  have h2 : (before ++ y :: x :: after)[before.length]? = some y := by
    rw [List.getElem?_append_right (le_refl _)]
    simp
  simp only [h1, h2]

theorem swap_adjacent (before after : List File) (x y : File) :
    (fileSorter.mk (before ++ y :: x :: after)).Swap (before.length + 1) before.length
      = fileSorter.mk (before ++ x :: y :: after) := by
  unfold fileSorter.Swap
  have h1 : (before ++ y :: x :: after)[before.length + 1]? = some x := by
    rw [List.getElem?_append_right (by omega)]
    simp
  have h2 : (before ++ y :: x :: after)[before.length]? = some y := by
    rw [List.getElem?_append_right (le_refl _)]
    simp
  simp only [h1, h2]
  congr 1
  rw [List.set_append_right _ _ (by omega)]
  rw [List.set_append_right _ _ (le_refl _)]
  simp

theorem insertionInner_eq (x : File) (back : List File) :
    ∀ after : List File,
      insertionInner (fileSorter.mk (back.reverse ++ x :: after)) back.length
        = fileSorter.mk ((insertBack x back).reverse ++ after) := by
  induction back with
  | nil => intro after; simp [insertionInner, insertBack]
  | cons y ys ih =>
    intro after
    have hlist : (y :: ys).reverse ++ x :: after = ys.reverse ++ y :: x :: after := by simp
    have hlen : (y :: ys).length = ys.reverse.length + 1 := by simp
    rw [hlist, hlen]
    unfold insertionInner
    rw [less_adjacent, swap_adjacent]
    by_cases hless : fileLess x y = true
    · have := ih (y :: after)
      simp only [List.length_reverse] at this ⊢
      simp [hless, insertBack, this]
    · simp [hless, insertBack]

theorem insertionOuter_eq (rest : List File) :
    ∀ (fuel : Nat) (back : List File), rest.length ≤ fuel →
      insertionOuter fuel back.length (fileSorter.mk (back.reverse ++ rest))
        = fileSorter.mk (rest.foldl (fun acc x => insertBack x acc) back).reverse := by
  induction rest with
  | nil =>
    intro fuel back _
    cases fuel with
    | zero => simp [insertionOuter]
    | succ fuel => simp [insertionOuter, fileSorter.Len]
  | cons x rest ih =>
    intro fuel back hfuel
    cases fuel with
    | zero => simp at hfuel
    | succ fuel =>
      unfold insertionOuter
      have hlt : back.length < (fileSorter.mk (back.reverse ++ x :: rest)).Len := by
        simp [fileSorter.Len]
      rw [if_pos hlt, insertionInner_eq]
      have hlen : back.length + 1 = (insertBack x back).length := by
        clear ih hlt hfuel
        induction back with
        | nil => simp [insertBack]
        | cons y ys ihb =>
          unfold insertBack
          split <;> simp [← ihb]
      rw [hlen, ih fuel (insertBack x back) (by simpa using hfuel)]
      simp

theorem sortSort_eq (files : List File) :
    sortSort (fileSorter.mk files)
      = fileSorter.mk (files.foldl (fun acc x => insertBack x acc) []).reverse := by
  unfold sortSort
  cases files with
  | nil => simp [insertionOuter, fileSorter.Len]
  | cons x rest =>
    have h := insertionOuter_eq rest (fileSorter.mk (x :: rest)).Len [x]
      (by simp [fileSorter.Len])
    simpa [insertBack] using h

theorem insertBack_perm (x : File) (back : List File) :
    (insertBack x back).Perm (x :: back) := by
  induction back with
  | nil => simp [insertBack]
  | cons y ys ih =>
    unfold insertBack
    split
    · exact (List.Perm.cons y ih).trans (List.Perm.swap x y ys)
    · exact List.Perm.refl _

theorem foldl_insertBack_perm (rest : List File) :
    ∀ back : List File,
      (rest.foldl (fun acc x => insertBack x acc) back).Perm (back ++ rest) := by
  induction rest with
  | nil => intro back; simp
  | cons x rest ih =>
    intro back
    simp only [List.foldl_cons]
    refine (ih (insertBack x back)).trans ?_
    refine (List.Perm.append_right rest (insertBack_perm x back)).trans ?_
    simpa using (@List.perm_middle _ x back rest).symm

theorem insertBack_pairwise (x : File) (back : List File)
    (h : back.Pairwise (fun a b => ¬ fileLess a b = true)) :
    (insertBack x back).Pairwise (fun a b => ¬ fileLess a b = true) := by
  induction back with
  | nil => simp [insertBack]
  | cons y ys ih =>
    rw [List.pairwise_cons] at h
    obtain ⟨hy, hys⟩ := h
    unfold insertBack
    by_cases hless : fileLess x y = true
    · rw [if_pos hless, List.pairwise_cons]
      refine ⟨?_, ih hys⟩
      intro z hz
      rcases List.mem_cons.1 ((insertBack_perm x ys).mem_iff.1 hz) with rfl | hz
      · exact fileLess_asymm _ _ hless
      · exact hy z hz
    · rw [if_neg hless, List.pairwise_cons]
      refine ⟨?_, List.pairwise_cons.2 ⟨hy, hys⟩⟩
      intro z hz
      rcases List.mem_cons.1 hz with rfl | hz
      · exact hless
      · exact fileLess_neg_trans x y z hless (hy z hz)

theorem foldl_insertBack_pairwise (rest : List File) :
    ∀ back : List File, back.Pairwise (fun a b => ¬ fileLess a b = true) →
      (rest.foldl (fun acc x => insertBack x acc) back).Pairwise
        (fun a b => ¬ fileLess a b = true) := by
  induction rest with
  | nil => intro back h; simpa using h
  | cons x rest ih =>
    intro back h
    simp only [List.foldl_cons]
    exact ih _ (insertBack_pairwise x back h)

theorem sortSort_perm (files : List File) : (sortSort (fileSorter.mk files)).files.Perm files := by
  rw [sortSort_eq]
  simpa using (List.reverse_perm _).trans (foldl_insertBack_perm files [])

theorem sortSort_pairwise (files : List File) :
    (sortSort (fileSorter.mk files)).files.Pairwise (fun a b => ¬ fileLess b a = true) := by
  rw [sortSort_eq]
  simp only
  rw [List.pairwise_reverse]
  exact foldl_insertBack_pairwise files [] List.Pairwise.nil

theorem sortIsSorted_pairwise (out : List File) (h : sortIsSorted (fileSorter.mk out) = true) :
    out.Pairwise (fun a b => ¬ fileLess b a = true) := by
  haveI : IsTrans File (fun a b => ¬ fileLess b a = true) :=
    ⟨fun a b c hab hbc => fileLess_neg_trans c b a hbc hab⟩
  rw [← List.chain'_iff_pairwise, List.chain'_iff_get]
  intro i hi
  unfold sortIsSorted at h
  rw [List.all_eq_true] at h
  have h1 := h (i + 1) (by simp [fileSorter.Len]; omega)
  simp only [Nat.add_one_ne_zero, decide_False, Bool.false_or, Bool.not_eq_true',
    Nat.add_sub_cancel] at h1
  unfold fileSorter.Less at h1
  have e1 : out[i + 1]? = some (out.get ⟨i + 1, by omega⟩) := by
    simp [List.getElem?_eq_getElem]
  have e2 : out[i]? = some (out.get ⟨i, by omega⟩) := by
    simp [List.getElem?_eq_getElem]
  simp only [e1, e2] at h1
  simpa using h1

theorem listing_order_of_pairwise (files out : List File)
    (hnames : (files.map File.Name).Nodup) (hperm : out.Perm files)
    (hsorted : out.Pairwise (fun a b => ¬ fileLess b a = true)) :
    out.Pairwise
      (fun a b => (b.Dir = true → a.Dir = true) ∧ (a.Dir = b.Dir → a.Name < b.Name)) := by
  have hnd : out.Nodup := hperm.nodup_iff.2 (List.Nodup.of_map _ hnames)
  have hboth := hsorted.and (List.Pairwise.and_mem.1 hnd)
  refine hboth.imp ?_
  intro a b hab
  obtain ⟨hnot, ha, hb, hne⟩ := hab
  have hane : a.Name ≠ b.Name := by
    intro he
    exact hne (List.inj_on_of_nodup_map hnames (hperm.mem_iff.1 ha) (hperm.mem_iff.1 hb) he)
  unfold fileLess at hnot
  constructor
  · intro hbd
    cases had : a.Dir with
    | true => rfl
    | false => simp [had, hbd] at hnot
  · intro hd
    have : ¬ (b.Name < a.Name) := by
      simpa [hd, stringLess_iff] using hnot
    rcases lt_trichotomy a.Name b.Name with h | h | h
    · exact h
    · exact absurd h hane
    · exact absurd h this

/-- C5. For a list of directory entries with pairwise distinct names, the list that
`sort.Sort` leaves in the `fileSorter` is a permutation of the input in which every
directory precedes every file and, among the directories and among the files, names
ascend in the byte-wise lexicographic order; and every permutation of the input that
`sort.IsSorted` accepts is that same list, so the outcome does not depend on the sorting
algorithm. -/
theorem C5_directory_listing_order (files : List File)
    (hnames : (files.map File.Name).Nodup) :
    (sortSort (fileSorter.mk files)).files.Perm files ∧
    (sortSort (fileSorter.mk files)).files.Pairwise
      (fun a b => (b.Dir = true → a.Dir = true) ∧ (a.Dir = b.Dir → a.Name < b.Name)) ∧
    (∀ out : List File, out.Perm files → sortIsSorted (fileSorter.mk out) = true →
      out = (sortSort (fileSorter.mk files)).files) := by
  refine ⟨sortSort_perm files, ?_, ?_⟩
  · exact listing_order_of_pairwise files _ hnames (sortSort_perm files) (sortSort_pairwise files)
  · intro out hperm hsorted
    refine List.Perm.eq_of_sorted ?_ (sortIsSorted_pairwise out hsorted)
      (sortSort_pairwise files) (hperm.trans (sortSort_perm files).symm)
    intro a b ha hb hab hba
    have hkey := fileKey_eq_of_not_less a b hba hab
    exact List.inj_on_of_nodup_map hnames (hperm.mem_iff.1 ha)
      ((sortSort_perm files).mem_iff.1 hb) hkey.2

/-- C5, at the listing of the specification: `b.txt`, `a/`, `c/`, `a.txt` sort to
`a/`, `c/`, `a.txt`, `b.txt`. -/
theorem C5_listing_witness :
    (sampleListing.map File.Name).Nodup ∧
    (sortSort (fileSorter.mk sampleListing)).files = sampleListingSorted ∧
    (sortSort (fileSorter.mk sampleListing)).files.map File.Name = ["a", "c", "a.txt", "b.txt"] :=
  have h := C5_directory_listing_order sampleListing (by decide)
  have e : sampleListingSorted = (sortSort (fileSorter.mk sampleListing)).files :=
    h.2.2 sampleListingSorted (by decide) (by decide)
  ⟨by decide, e.symm, by rw [← e]; decide⟩

/-! ## C6: failure isolation in synchronisation -/

/-- C6 (the code departs from the claim). With the registry `alpha`, `beta` visited in
this order and a pull of `alpha` that fails, the loop of `Config.RefreshRepos` returns the
error of `alpha` at once: `Repo.Refresh` is invoked on `alpha` only, although the sync of
`beta` would have succeeded. -/
theorem C6_failure_not_isolated :
    repoAlpha.Refresh twoRepos.Auth alphaFailsEnv
      = .ret (some (.other "authentication required")) ∧
    repoBeta.Refresh twoRepos.Auth alphaFailsEnv = .ret none ∧
    syncLoop twoRepos.Auth alphaFailsEnv twoRepos.Repos
      = (.ret (some (.other "authentication required")), ["alpha"]) ∧
    (∀ lib c load, Config.Refresh lib c load = (twoRepos, .ret none) →
      (Config.RefreshRepos lib c load alphaFailsEnv).result
          = .ret (some (.other "authentication required")) ∧
      (Config.RefreshRepos lib c load alphaFailsEnv).synced = ["alpha"] ∧
      "beta" ∈ (Config.RefreshRepos lib c load alphaFailsEnv).config.Repos.map Prod.fst ∧
      "beta" ∉ (Config.RefreshRepos lib c load alphaFailsEnv).synced) := by
  have hloop : syncLoop twoRepos.Auth alphaFailsEnv twoRepos.Repos
      = (.ret (some (.other "authentication required")), ["alpha"]) := by decide
  refine ⟨by decide, by decide, hloop, ?_⟩
  intro lib c load h
  have hrun : Config.RefreshRepos lib c load alphaFailsEnv =
      { config := twoRepos, result := .ret (some (.other "authentication required")),
        synced := ["alpha"] } := by
    unfold Config.RefreshRepos
    rw [h]
    simp only [hloop]
  rw [hrun]
  refine ⟨rfl, rfl, by decide, by decide⟩

/-! ## C7: "no new changes" is success -/

theorem resolveAuth_eq_panic_iff (auth : List (String × Option Auth)) (host : String) :
    resolveAuth auth host = .panic ↔ auth.lookup host = some none := by
  unfold resolveAuth
  cases h : auth.lookup host with
  | none => simp
  | some entry =>
    cases entry with
    | none => simp
    | some a => simp

/-- The panic of `Repo.Refresh` on a nil credential: with the key of the host present and
a nil `*Auth` stored under it, the method panics before `os.Stat` and issues no pull. -/
theorem refresh_nil_credential_panics (r : Repo) (auth : List (String × Option Auth))
    (env : GitEnv) (u : URL) (hurl : r.ParsedUrl = some u)
    (hnil : auth.lookup u.Host = some none) :
    r.Refresh auth env = .panic := by
  have h := (resolveAuth_eq_panic_iff auth u.Host).2 hnil
  simp [Repo.Refresh, hurl, h]

/-- The panic on a nil credential, at the demo repository: the local root exists, would
open and is up to date, and the run ends before any of these calls. -/
theorem refresh_null_credential_example :
    resolveAuth nullCredential "github.com" = .panic ∧
    demoRepo.Refresh nullCredential upToDateEnv = .panic := by
  exact ⟨by decide, by decide⟩

/-- C7. For a repository whose local root exists and for which opening the repository and
its worktree succeed, in a run that has passed the block "Get auth if required" with the
credential `basicAuth` that the pull is issued with, `Repo.Refresh` returns nil when the
pull returns nil or `git.NoErrAlreadyUpToDate`, and returns the error of the pull for
every other result of the pull. -/
theorem C7_already_up_to_date_is_success (r : Repo) (auth : List (String × Option Auth))
    (env : GitEnv) (u : URL) (root : String) (basicAuth : Option BasicAuth)
    (hurl : r.ParsedUrl = some u)
    (hroot : r.LocalRootPath = some root)
    (hauth : resolveAuth auth u.Host = .resolved basicAuth)
    (hexists : env.statIsNotExist root = false)
    (hopen : env.plainOpen root = none)
    (hworktree : env.worktree root = none) :
    (env.pull root basicAuth = none → r.Refresh auth env = .ret none) ∧
    (env.pull root basicAuth = some .NoErrAlreadyUpToDate →
      r.Refresh auth env = .ret none) ∧
    (∀ err, env.pull root basicAuth = some err →
      err ≠ .NoErrAlreadyUpToDate → r.Refresh auth env = .ret (some err)) := by
  have hr : filepathJoin ["repos", u.Host, u.Path] = root := by
    simpa [Repo.LocalRootPath, hurl] using hroot
  refine ⟨?_, ?_, ?_⟩
  · intro hp
    simp [Repo.Refresh, hurl, hauth, hr, hexists, hopen, hworktree, hp]
  · intro hp
    simp [Repo.Refresh, hurl, hauth, hr, hexists, hopen, hworktree, hp]
  · intro err hp hne
    simp [Repo.Refresh, hurl, hauth, hr, hexists, hopen, hworktree, hp, hne]

/-- C7, at a second sync of the demo repository against an unchanged upstream, with the
credential of `foo` and with no credential for the host. -/
theorem C7_second_sync_witness :
    demoRepo.Refresh demoConfig.Auth upToDateEnv = .ret none ∧
    demoRepo.Refresh [] upToDateEnv = .ret none :=
  ⟨(C7_already_up_to_date_is_success demoRepo demoConfig.Auth upToDateEnv
      { Scheme := "https", Host := "github.com", Path := "/octocat/hello" }
      "repos/github.com/octocat/hello" (some { Username := "foo", Password := "s3cret" })
      rfl (by decide) (by decide) rfl rfl rfl).2.1 rfl,
   (C7_already_up_to_date_is_success demoRepo [] upToDateEnv
      { Scheme := "https", Host := "github.com", Path := "/octocat/hello" }
      "repos/github.com/octocat/hello" none
      rfl (by decide) (by decide) rfl rfl rfl).2.1 rfl⟩

/-! ## C8: breadcrumb trail -/

theorem splitChars_ne_nil (sep : Char) (cs : List Char) : splitChars sep cs ≠ [] := by
  cases cs with
  | nil => simp [splitChars]
  | cons c cs =>
    unfold splitChars
    split
    · simp
    · split <;> simp

theorem stringsSplit_length_pos (s : String) (sep : Char) : 1 ≤ (stringsSplit s sep).length := by
  unfold stringsSplit
  rw [List.length_map]
  exact List.length_pos.2 (splitChars_ne_nil sep s.data)

theorem breadcrumbLoop_eq (segs : List String) (isDir : Bool) (todo : List String) :
    ∀ (fuel : Nat) (done : List String) (cum : String) (acc : List Breadcrumb),
      segs = done ++ todo → todo.length ≤ fuel →
      breadcrumbLoop segs isDir fuel done.length cum acc =
        acc ++ crumbsFrom segs.length isDir done.length cum todo := by
  induction todo with
  | nil =>
    intro fuel done cum acc hsegs _
    have hnone : segs[done.length]? = none := by
      rw [hsegs]; simp
    cases fuel with
    | zero => simp [breadcrumbLoop, crumbsFrom]
    | succ fuel => simp [breadcrumbLoop, crumbsFrom, hnone]
  | cons s rest ih =>
    intro fuel done cum acc hsegs hfuel
    cases fuel with
    | zero => simp at hfuel
    | succ fuel =>
      have hsome : segs[done.length]? = some s := by
        rw [hsegs, List.getElem?_append_right (le_refl _)]; simp
      have hlen : segs.length = done.length + (rest.length + 1) := by
        rw [hsegs]; simp
      have hsegs1 : segs = (done ++ [s]) ++ rest := by
        rw [hsegs]; simp
      have hih := ih fuel (done ++ [s]) (cum ++ "/" ++ s)
        (acc ++ [{ Name := s,
                   Url := if (done.length == segs.length - 1) = true then "" else cum ++ "/" ++ s,
                   Bold := done.length == segs.length - 1,
                   Dir := !(done.length == segs.length - 1) ||
                     ((done.length == segs.length - 1) && isDir) }])
        hsegs1 (by simpa using hfuel)
      have hlast : (done.length == segs.length - 1) = decide (done.length + 1 = segs.length) := by
        rw [Bool.eq_iff_iff]
        simp only [beq_iff_eq, decide_eq_true_eq]
        omega
      have hdir : (!(done.length == segs.length - 1) ||
          ((done.length == segs.length - 1) && isDir)) =
          (decide (done.length + 1 < segs.length) || isDir) := by
        rw [hlast]
        by_cases hr : done.length + 1 = segs.length
        · have h3 : ¬ (done.length + 1 < segs.length) := by omega
          simp [hr]
        · have h3 : done.length + 1 < segs.length := by omega
          simp [hr, h3]
      unfold breadcrumbLoop
      simp only [hsome]
      rw [List.length_append, List.length_singleton] at hih
      rw [hih, crumbsFrom, hdir, hlast]
      simp

theorem crumbsFrom_length (n : Nat) (isDir : Bool) (todo : List String) :
    ∀ (i : Nat) (cum : String), (crumbsFrom n isDir i cum todo).length = todo.length := by
  induction todo with
  | nil => intro i cum; rfl
  | cons s rest ih => intro i cum; simp [crumbsFrom, ih]

theorem crumbsFrom_getElem? (n : Nat) (isDir : Bool) (todo : List String) :
    ∀ (i : Nat) (cum : String) (j : Nat) (s : String), todo[j]? = some s →
      (crumbsFrom n isDir i cum todo)[j]? = some
        { Name := s,
          Url := if i + j + 1 = n then ""
            else (todo.take (j + 1)).foldl (fun link s => link ++ "/" ++ s) cum,
          Bold := decide (i + j + 1 = n),
          Dir := decide (i + j + 1 < n) || isDir } := by
  induction todo with
  | nil => intro i cum j s h; simp at h
  | cons s0 rest ih =>
    intro i cum j s h
    cases j with
    | zero =>
      simp only [List.getElem?_cons_zero, Option.some.injEq] at h
      subst h
      simp [crumbsFrom]
    | succ j =>
      simp only [List.getElem?_cons_succ] at h
      have := ih (i + 1) (cum ++ "/" ++ s0) j s h
      simp only [crumbsFrom, List.getElem?_cons_succ, this, List.take_succ_cons, List.foldl_cons]
      have e1 : i + 1 + j + 1 = i + (j + 1) + 1 := by omega
      rw [e1]

theorem crumbLink_ne_empty (segments : List String) :
    ∀ base : String, base ≠ "" →
      segments.foldl (fun link s => link ++ "/" ++ s) base ≠ "" := by
  induction segments with
  | nil => intro base h; simpa using h
  | cons s rest ih =>
    intro base _
    simp only [List.foldl_cons]
    apply ih
    intro h
    have hl := congrArg String.length h
    simp [String.length_append] at hl
    have : "/".length = 1 := by decide
    omega

theorem slash_append_ne_empty (r : String) : "/" ++ r ≠ "" := by
  intro h
  have hl := congrArg String.length h
  simp [String.length_append] at hl
  have : "/".length = 1 := by decide
  omega

/-- C8. At the root (`.`) the trail is the single crumb of the repository: name `r`, empty
link, bold, directory. For a path other than the root, with segments `s1 .. sn` (split on
the slash, `n ≥ 1`), the trail is the crumb of the repository with link `/r`, bold,
directory, followed by `n` crumbs of which crumb `i` has name `si`, link
`/r/s1/../si` when `i < n` and the empty link when `i = n`, is bold exactly when `i = n`,
and is a directory when `i < n`, and when `i = n` exactly if the resolved location is a
directory. In every trail a crumb has the empty link exactly when it is the last one. -/
theorem C8_breadcrumb_trail (r p : String) (isDir : Bool) :
    (p = "." →
      buildBreadcrumbs r p isDir = [{ Name := r, Url := "", Bold := true, Dir := true }]) ∧
    (p ≠ "." →
      1 ≤ (stringsSplit p '/').length ∧
      (buildBreadcrumbs r p isDir).length = (stringsSplit p '/').length + 1 ∧
      (buildBreadcrumbs r p isDir)[0]? =
        some { Name := r, Url := "/" ++ r, Bold := true, Dir := true } ∧
      ∀ i s, (stringsSplit p '/')[i]? = some s →
        (buildBreadcrumbs r p isDir)[i + 1]? = some
          { Name := s,
            Url := if i + 1 = (stringsSplit p '/').length then ""
              else crumbLinkRef r ((stringsSplit p '/').take (i + 1)),
            Bold := decide (i + 1 = (stringsSplit p '/').length),
            Dir := decide (i + 1 < (stringsSplit p '/').length) || isDir }) ∧
    (∀ k crumb, (buildBreadcrumbs r p isDir)[k]? = some crumb →
      (crumb.Url = "" ↔ k + 1 = (buildBreadcrumbs r p isDir).length)) := by
  have hroot : p = "." →
      buildBreadcrumbs r p isDir = [{ Name := r, Url := "", Bold := true, Dir := true }] := by
    intro hp
    simp [buildBreadcrumbs, hp]
  have hloop : p ≠ "." → buildBreadcrumbs r p isDir =
      [{ Name := r, Url := "/" ++ r, Bold := true, Dir := true }] ++
        crumbsFrom (stringsSplit p '/').length isDir 0 ("/" ++ r) (stringsSplit p '/') := by
    intro hp
    have h := breadcrumbLoop_eq (stringsSplit p '/') isDir (stringsSplit p '/')
      (stringsSplit p '/').length [] ("/" ++ r)
      [{ Name := r, Url := "/" ++ r, Bold := true, Dir := true }] rfl (le_refl _)
    simp only [List.length_nil] at h
    simp only [buildBreadcrumbs, hp, if_false]
    exact h
  have hpos := stringsSplit_length_pos p '/'
  have hidx : ∀ i s, (stringsSplit p '/')[i]? = some s →
      (crumbsFrom (stringsSplit p '/').length isDir 0 ("/" ++ r) (stringsSplit p '/'))[i]? = some
          ({ Name := s,
             Url := if i + 1 = (stringsSplit p '/').length then ""
               else crumbLinkRef r ((stringsSplit p '/').take (i + 1)),
             Bold := decide (i + 1 = (stringsSplit p '/').length),
             Dir := decide (i + 1 < (stringsSplit p '/').length) || isDir } : Breadcrumb) := by
    intro i s hs
    have h := crumbsFrom_getElem? (stringsSplit p '/').length isDir (stringsSplit p '/')
      0 ("/" ++ r) i s hs
    simpa [crumbLinkRef] using h
  refine ⟨hroot, ?_, ?_⟩
  · intro hp
    refine ⟨hpos, ?_, ?_, ?_⟩
    · rw [hloop hp]
      simp [crumbsFrom_length]
    · rw [hloop hp]
      simp
    · intro i s hs
      rw [hloop hp]
      simpa using hidx i s hs
  · intro k crumb hk
    by_cases hp : p = "."
    · rw [hroot hp] at hk ⊢
      cases k with
      | zero =>
        simp only [List.getElem?_cons_zero, Option.some.injEq] at hk
        subst hk
        simp
      | succ k => simp at hk
    · rw [hloop hp] at hk ⊢
      simp only [List.length_append, List.length_singleton, crumbsFrom_length]
      cases k with
      | zero =>
        simp only [List.singleton_append, List.getElem?_cons_zero, Option.some.injEq] at hk
        subst hk
        constructor
        · intro h
          exact absurd h (slash_append_ne_empty r)
        · intro h
          omega
      | succ k =>
        simp only [List.singleton_append, List.getElem?_cons_succ] at hk
        have hlt : k < (stringsSplit p '/').length := by
          have := List.getElem?_eq_some_iff.1 hk
          obtain ⟨h1, _⟩ := this
          simpa [crumbsFrom_length] using h1
        obtain ⟨s, hs⟩ : ∃ s, (stringsSplit p '/')[k]? = some s :=
          ⟨_, List.getElem?_eq_getElem hlt⟩
        rw [hidx k s hs] at hk
        simp only [Option.some.injEq] at hk
        subst hk
        by_cases hlast : k + 1 = (stringsSplit p '/').length
        · simp only [hlast, if_true, true_iff]
          omega
        · simp only [hlast, if_false]
          constructor
          · intro h
            exact absurd h (crumbLink_ne_empty _ _ (slash_append_ne_empty r))
          · intro h
            omega

/-- C8, at the root of `demo` and at the file `src/app.py` of the specification. -/
theorem C8_breadcrumb_witness :
    buildBreadcrumbs "demo" "." true
      = [{ Name := "demo", Url := "", Bold := true, Dir := true }] ∧
    (buildBreadcrumbs "demo" "src/app.py" false)[0]?
      = some { Name := "demo", Url := "/demo", Bold := true, Dir := true } ∧
    (buildBreadcrumbs "demo" "src/app.py" false)[1]?
      = some { Name := "src", Url := "/demo/src", Bold := false, Dir := true } ∧
    (buildBreadcrumbs "demo" "src/app.py" false)[2]?
      = some { Name := "app.py", Url := "", Bold := true, Dir := false } :=
  have h := (C8_breadcrumb_trail "demo" "src/app.py" false).2.1 (by decide)
  ⟨(C8_breadcrumb_trail "demo" "." true).1 rfl, h.2.2.1,
    (h.2.2.2 0 "src" (by decide)).trans (by decide),
    (h.2.2.2 1 "app.py" (by decide)).trans (by decide)⟩

/-! ## C9 and C10: a configuration load that fails -/

theorem urlParse_colon (lib : UrlLib) :
    urlParse lib "://" = .error colonUrlError := by
  have h1 : urlSplit "://" '#' = ("://", "") := by decide
  have h2 : stringContainsCTLByte "://" = false := by decide
  have h3 : ("://" : String) ≠ "*" := by decide
  have h4 : getscheme "://" = .error (GoError.other "missing protocol scheme") := by rfl
  simp [urlParse, urlParseNoFragment, h1, h2, h3, h4, colonUrlError]

theorem normaliseRepo_ok_iff (lib : UrlLib) (auth : List (String × Option Auth)) (repo : Repo) :
    (normaliseRepo lib auth repo).2 = .ret none ↔
      ∃ url parsed, normaliseUrl auth repo.Url = some url ∧ urlParse lib url = .ok parsed := by
  unfold normaliseRepo
  cases hn : normaliseUrl auth repo.Url with
  | none => simp
  | some url =>
    cases hp : urlParse lib url with
    | error err => simp [hp]
    | ok parsed => simp [hp]

theorem normaliseRepo_parse_error (lib : UrlLib) (auth : List (String × Option Auth)) (repo : Repo)
    (url : String) (err : GoError) (hurl : normaliseUrl auth repo.Url = some url)
    (hparse : urlParse lib url = .error err) :
    normaliseRepo lib auth repo
      = ({ repo with Url := url, ParsedUrl := none }, .ret (some err)) := by
  simp [normaliseRepo, hurl, hparse]

theorem normaliseRepo_panic_iff (lib : UrlLib) (auth : List (String × Option Auth)) (repo : Repo) :
    (normaliseRepo lib auth repo).2 = .panic ↔ normaliseUrl auth repo.Url = none := by
  unfold normaliseRepo
  cases hn : normaliseUrl auth repo.Url with
  | none => simp
  | some url =>
    cases hp : urlParse lib url with
    | error err => simp [hp]
    | ok parsed => simp [hp]

theorem normaliseUrl_eq_none_iff (auth : List (String × Option Auth)) (url : String) :
    normaliseUrl auth url = none ↔
      stringsContains url '/' = false ∧ authEntry auth "github.com" = none := by
  unfold normaliseUrl
  cases hc : stringsContains url '/' with
  | true =>
    simp only [Bool.not_true, Bool.false_eq_true, if_false, false_and, iff_false]
    split <;> simp
  | false =>
    cases hl : authEntry auth "github.com" with
    | none => simp
    | some a =>
      simp only [Bool.not_false, if_true, true_and, iff_false]
      split <;> simp

/-- C9 (counterexample). The registry holds the parsed repository `demo`; `config.yml` is
then decoded with a new repository whose URL `://` does not parse. `Config.RefreshRepos`
returns the parse error, and the registry it leaves is the decoded one, not the prior one:
it holds the entry `broken`, and `demo` has lost its parsed URL, so that a request for
`demo` now ends in a panic. -/
theorem C9_registry_not_restored :
    (∀ lib, urlParse lib "://" = .error colonUrlError) ∧
    (∀ lib env, (refreshRepos lib demoConfig (.decoded brokenConfig) env).result
      = .ret (some colonUrlError)) ∧
    (∀ lib env, (refreshRepos lib demoConfig (.decoded brokenConfig) env).config
      = brokenConfig) ∧
    brokenConfig ≠ demoConfig ∧
    demoConfig.Repos.lookup "demo" = some demoRepo ∧
    brokenConfig.Repos.lookup "demo"
      = some { Url := "octocat/hello", Dir := "", ParsedUrl := none } ∧
    (∀ L fs raw, pathHandler brokenConfig L fs "demo" "." raw = .panic) := by
  have hrepo : ∀ lib, normaliseRepo lib brokenConfig.Auth
      { Url := "://", Dir := "", ParsedUrl := none }
      = ({ Url := "://", Dir := "", ParsedUrl := none },
         .ret (some colonUrlError)) := by
    intro lib
    exact normaliseRepo_parse_error lib _ _ "://" _ (by decide) (urlParse_colon lib)
  have hrefresh : ∀ lib, Config.Refresh lib demoConfig (.decoded brokenConfig)
      = (brokenConfig, .ret (some colonUrlError)) := by
    intro lib
    have h := hrepo lib
    simp only [Config.Refresh, brokenConfig, normaliseLoop] at h ⊢
    simp only [h]
  have hrun : ∀ lib env, refreshRepos lib demoConfig (.decoded brokenConfig) env
      = { config := brokenConfig, result := .ret (some colonUrlError),
          synced := [] } := by
    intro lib env
    unfold refreshRepos Config.RefreshRepos
    rw [hrefresh lib]
  refine ⟨urlParse_colon, ?_, ?_, by decide, by decide, by decide, ?_⟩
  · intro lib env; rw [hrun]
  · intro lib env; rw [hrun]
  · intro L fs raw
    have hlook : brokenConfig.Repos.lookup "demo"
        = some { Url := "octocat/hello", Dir := "", ParsedUrl := none } := by decide
    simp [pathHandler, hlook, Repo.LocalPath, Repo.LocalRootPath]

/-- C9 (amended). When the normalisation loop of `Config.Refresh` reaches a repository whose
normalised URL fails to parse, every repository visited before it having parsed, then
`Config.Refresh` returns the parse error, `Config.RefreshRepos` and `Server.refreshRepos`
return the same error without invoking `Repo.Refresh` on any repository, and the registry
left for the request handlers is the decoded configuration as the loop left it: the
repositories visited earlier normalised and parsed, the failing one with its normalised
URL and a nil `ParsedUrl`, the remaining ones as decoded. The prior registry is not
restored. -/
theorem C9_failed_load_leaves_decoded_registry (lib : UrlLib) (prior : Config) (env : GitEnv)
    (auth : List (String × Option Auth)) (before after : List (String × Repo))
    (name : String) (repo : Repo) (url : String) (err : GoError)
    (hbefore : ∀ e ∈ before, ∃ u parsed,
      normaliseUrl auth e.2.Url = some u ∧ urlParse lib u = .ok parsed)
    (hurl : normaliseUrl auth repo.Url = some url)
    (hparse : urlParse lib url = .error err) :
    Config.Refresh lib prior (.decoded { Auth := auth, Repos := before ++ (name, repo) :: after })
      = ({ Auth := auth,
           Repos := before.map (fun e => (e.1, (normaliseRepo lib auth e.2).1)) ++
             (name, { repo with Url := url, ParsedUrl := none }) :: after },
         .ret (some err)) ∧
    refreshRepos lib prior (.decoded { Auth := auth, Repos := before ++ (name, repo) :: after }) env
      = { config :=
            { Auth := auth,
              Repos := before.map (fun e => (e.1, (normaliseRepo lib auth e.2).1)) ++
                (name, { repo with Url := url, ParsedUrl := none }) :: after },
          result := .ret (some err),
          synced := [] } := by
  have hrepo := normaliseRepo_parse_error lib auth repo url err hurl hparse
  have hloop := normaliseLoop_stop lib auth before after name repo
    (fun e he => (normaliseRepo_ok_iff lib auth e.2).2 (hbefore e he))
    (by rw [hrepo]; simp)
  rw [hrepo] at hloop
  have hrefresh : Config.Refresh lib prior
      (.decoded { Auth := auth, Repos := before ++ (name, repo) :: after })
      = ({ Auth := auth,
           Repos := before.map (fun e => (e.1, (normaliseRepo lib auth e.2).1)) ++
             (name, { repo with Url := url, ParsedUrl := none }) :: after },
         .ret (some err)) := by
    simp only [Config.Refresh, hloop]
  refine ⟨hrefresh, ?_⟩
  unfold refreshRepos Config.RefreshRepos
  rw [hrefresh]

/-- C9 (amended), at the decoded configuration holding the unparsable URL `://`. -/
theorem C9_failed_load_witness :
    (∀ lib, urlParse lib "://" = .error colonUrlError) ∧
    (∀ lib env, refreshRepos lib demoConfig (.decoded brokenConfig) env
      = { config := brokenConfig, result := .ret (some colonUrlError),
          synced := [] }) :=
  ⟨urlParse_colon, fun lib env =>
    (C9_failed_load_leaves_decoded_registry lib demoConfig env brokenConfig.Auth []
      [("demo", { Url := "octocat/hello", Dir := "", ParsedUrl := none })] "broken"
      { Url := "://", Dir := "", ParsedUrl := none } "://" colonUrlError
      (fun e he => absurd he (List.not_mem_nil e)) (by decide) (urlParse_colon lib)).2⟩

theorem normaliseLoop_panic (lib : UrlLib) (auth : List (String × Option Auth))
    (repos : List (String × Repo)) (h : (normaliseLoop lib auth repos).2 = .panic) :
    ∃ e ∈ repos, (normaliseRepo lib auth e.2).2 = .panic := by
  induction repos with
  | nil => simp [normaliseLoop] at h
  | cons e rest ih =>
    obtain ⟨name, repo⟩ := e
    unfold normaliseLoop at h
    rcases hr : normaliseRepo lib auth repo with ⟨repo1, res⟩
    rw [hr] at h
    cases res with
    | panic => exact ⟨(name, repo), by simp, by simp [hr]⟩
    | ret err =>
      cases err with
      | some err => simp at h
      | none =>
        simp only at h
        obtain ⟨e, he, hp⟩ := ih h
        exact ⟨e, List.mem_cons_of_mem _ he, hp⟩

/-- C10 (counterexample). The decoded configuration holds the bare repository name `bar`
and no github.com credential, yet `Config.Refresh` completes normally, returning the parse
error of the repository `broken` that the loop visits first. -/
theorem C10_bare_name_may_return_error :
    bareConfig.Auth.lookup "github.com" = none ∧
    (∃ e ∈ bareConfig.Repos, stringsContains e.2.Url '/' = false) ∧
    (∀ lib c, (Config.Refresh lib c (.decoded bareConfig)).2
      = .ret (some colonUrlError)) := by
  refine ⟨by decide, ⟨("lib", { Url := "bar", Dir := "", ParsedUrl := none }), by decide,
    by decide⟩, ?_⟩
  intro lib c
  have hrepo : normaliseRepo lib bareConfig.Auth { Url := "://", Dir := "", ParsedUrl := none }
      = ({ Url := "://", Dir := "", ParsedUrl := none },
         .ret (some colonUrlError)) :=
    normaliseRepo_parse_error lib _ _ "://" _ (by decide) (urlParse_colon lib)
  simp only [Config.Refresh, bareConfig, normaliseLoop] at hrepo ⊢
  simp only [hrepo]

/-- C10 (amended). `Config.Refresh` reads the github.com credential only for a repository URL
without a slash: the normalisation of a URL with a slash is the same under every credential
map and never panics, and the normalisation of one URL panics exactly when the URL has no
slash and `c.Auth["github.com"]` is nil (no entry, or a nil entry). So for a configuration
with a github.com credential, or without a bare repository name, `Config.Refresh` never
ends in the missing-entry dereference. For a configuration without github.com credential,
the loop ends in that dereference, instead of returning an error, when it reaches a bare
name, every repository visited before it having parsed. -/
theorem C10_credential_dereference (lib : UrlLib) (c : Config)
    (auth : List (String × Option Auth)) :
    (∀ auth1 u, stringsContains u '/' = true →
      normaliseUrl auth u = normaliseUrl auth1 u ∧ normaliseUrl auth u ≠ none) ∧
    (∀ u, normaliseUrl auth u = none ↔
      (stringsContains u '/' = false ∧ authEntry auth "github.com" = none)) ∧
    (∀ repos, (authEntry auth "github.com" ≠ none ∨
        ∀ e ∈ repos, stringsContains e.2.Url '/' = true) →
      (Config.Refresh lib c (.decoded { Auth := auth, Repos := repos })).2 ≠ .panic) ∧
    (∀ before name repo after,
      authEntry auth "github.com" = none →
      stringsContains repo.Url '/' = false →
      (∀ e ∈ before, ∃ u parsed,
        normaliseUrl auth e.2.Url = some u ∧ urlParse lib u = .ok parsed) →
      (Config.Refresh lib c
        (.decoded { Auth := auth, Repos := before ++ (name, repo) :: after })).2 = .panic) := by
  refine ⟨?_, normaliseUrl_eq_none_iff auth, ?_, ?_⟩
  · intro auth1 u hu
    constructor
    · simp [normaliseUrl, hu]
    · intro hnone
      have := (normaliseUrl_eq_none_iff auth u).1 hnone
      rw [hu] at this
      exact Bool.noConfusion this.1
  · intro repos hcases hpanic
    have hloop : (normaliseLoop lib auth repos).2 = .panic := by
      simpa [Config.Refresh] using hpanic
    obtain ⟨e, he, hp⟩ := normaliseLoop_panic lib auth repos hloop
    have hnone := (normaliseRepo_panic_iff lib auth e.2).1 hp
    obtain ⟨hbare, hcred⟩ := (normaliseUrl_eq_none_iff auth e.2.Url).1 hnone
    rcases hcases with h | h
    · exact h hcred
    · rw [h e he] at hbare
      exact Bool.noConfusion hbare
  · intro before name repo after hcred hbare hbefore
    have hp : (normaliseRepo lib auth repo).2 = .panic :=
      (normaliseRepo_panic_iff lib auth repo).2
        ((normaliseUrl_eq_none_iff auth repo.Url).2 ⟨hbare, hcred⟩)
    have hloop := normaliseLoop_stop lib auth before after name repo
      (fun e he => (normaliseRepo_ok_iff lib auth e.2).2 (hbefore e he))
      (by rw [hp]; simp)
    simp only [Config.Refresh, hloop, hp]

/-- C10 (amended), at a registry with the credential of `foo` and at configurations that
hold only the bare name `bar` and no credential: no entry, and a nil entry. -/
theorem C10_credential_witness :
    (∀ lib c, (Config.Refresh lib c (.decoded
      { Auth := demoConfig.Auth,
        Repos := [("lib", { Url := "bar", Dir := "", ParsedUrl := none })] })).2 ≠ .panic) ∧
    (∀ lib c, (Config.Refresh lib c (.decoded
      { Auth := [],
        Repos := [("lib", { Url := "bar", Dir := "", ParsedUrl := none })] })).2 = .panic) ∧
    (∀ lib c, (Config.Refresh lib c (.decoded
      { Auth := nullCredential,
        Repos := [("lib", { Url := "bar", Dir := "", ParsedUrl := none })] })).2 = .panic) :=
  ⟨fun lib c => (C10_credential_dereference lib c demoConfig.Auth).2.2.1
      [("lib", { Url := "bar", Dir := "", ParsedUrl := none })] (Or.inl (by decide)),
   fun lib c => (C10_credential_dereference lib c []).2.2.2 [] "lib"
      { Url := "bar", Dir := "", ParsedUrl := none } [] rfl (by decide)
      (fun e he => absurd he (List.not_mem_nil e)),
   fun lib c => (C10_credential_dereference lib c nullCredential).2.2.2 [] "lib"
      { Url := "bar", Dir := "", ParsedUrl := none } [] (by decide) (by decide)
      (fun e he => absurd he (List.not_mem_nil e))⟩

end Gitviewer
